import Mathlib

/-!
Verification of the blockwise fragment-extraction core of the `lsd` package
(src/lsd/parallel_fragments.py, src/lsd/fragments.py, src/lsd/rag.py).

Voxel arrays are modelled as `List Nat` of labels (uint64 values, which the
code never brings near 2^64, so plain naturals are used).  External primitives
(mahotas distance/label/cwatershed, scipy, waterz, funlib relabel, networkx,
skimage merge_nodes) enter either as opaque function parameters constrained by
their documented behaviour, or as direct implementations of their documented
semantics; each such modelling choice is recorded in the doc comment of the
definition that makes it.
-/

/-- Parameters of a daisy block as consumed by `watershed_in_block`
(src/lsd/parallel_fragments.py).  All sizes are volumes in world units, as
returned by `daisy.Roi.size()`; `voxelVolume` models
`daisy.Roi((0,)*dims, affs.voxel_size).size()` (line 182).  With the `shrink`
fit policy the actual write region can be smaller than the requested one, so
`writeRoiSize ≤ requestedWriteRoiSize` in every real block. -/
structure BlockParams where
  blockId : Nat
  writeRoiSize : Nat
  requestedWriteRoiSize : Nat
  voxelVolume : Nat
  deriving DecidableEq

/-- Line 183: `num_voxels_in_block = block.requested_write_roi.size()//size_of_voxel`. -/
def num_voxels_in_block (p : BlockParams) : Nat :=
  p.requestedWriteRoiSize / p.voxelVolume

/-- Line 184: `id_bump = block.block_id*num_voxels_in_block`. -/
def id_bump (p : BlockParams) : Nat :=
  p.blockId * num_voxels_in_block p

/-- Models `funlib.segment.arrays.relabel` (external, line 179): the distinct
non-zero ids of the array are renamed to the consecutive range 1..n, where n
(also returned) is the number of distinct non-zero ids; 0 is kept fixed.
The model numbers distinct ids in order of first occurrence. -/
def relabel (data : List Nat) : List Nat × Nat :=
  let vals := (data.filter (fun x => x ≠ 0)).dedup
  (data.map (fun x => if x = 0 then 0 else vals.indexOf x + 1), vals.length)

/-- Maximum entry of a voxel array, `fragments.data.max()` (0 on empty data). -/
def listMax (data : List Nat) : Nat := data.foldr max 0

/-- Models lines 164-165 of watershed_in_block:
`fragments_data *= mask_data.astype(np.uint64)`, a pointwise multiplication by
the 0/1 mask. -/
def apply_mask (data mask : List Nat) : List Nat :=
  List.zipWith (fun a m => a * m) data mask

/-- Models watershed_in_block (src/lsd/parallel_fragments.py lines 136-287)
from the point where the extracted fragment data has been cropped to the
block's write region (line 169): `cropped` is that data (after the optional
mask multiplication, which is pointwise and hence commutes with the crop) and
`n0` is the fragment count returned by watershed_from_affinities.  The model
covers the relabel guard (lines 172-179: relabel if the max id exceeds
`block.write_roi.size()`, which also replaces n), the id bump applied to the
strictly positive labels (line 187), `fragment_ids = range(id_bump + 1,
id_bump + 1 + n)` (line 188), and the early return at `if n == 0` (lines
190-192), which happens before anything is written.  The result is `none`
when that early return fires (nothing is written to the output array or the
RAG store), and otherwise `some (fragments written to fragments_out, node ids
written to the RAG store)`; a node is written for each fragment id whose
center of mass is not NaN, i.e. for each id actually present in the cropped
data (lines 194-201 and 275-286; `myelin_ds` is `None` in this pipeline, so
lines 203-269 are skipped). -/
def watershed_in_block (p : BlockParams) (cropped : List Nat) (n0 : Nat) :
    Option (List Nat × List Nat) :=
  let max_id := listMax cropped
  let dn := if max_id > p.writeRoiSize then relabel cropped else (cropped, n0)
  let frags := dn.1.map (fun x => if 0 < x then x + id_bump p else x)
  let fragment_ids := (List.range dn.2).map (fun i => id_bump p + 1 + i)
  if dn.2 = 0 then none
  else some (frags, fragment_ids.filter (fun i => decide (i ∈ frags)))

/-- The fragment ids a block emits: the non-zero labels written to the output
array together with the node ids written to the RAG store (empty when the
block returns early). -/
def emitted_ids (p : BlockParams) (cropped : List Nat) (n0 : Nat) : List Nat :=
  match watershed_in_block p cropped n0 with
  | none => []
  | some r => r.1.filter (fun x => x ≠ 0) ++ r.2

/-- Models block_done (lines 127-129):
`rag_provider.num_nodes(block.write_roi) > 0`. -/
def block_done (num_nodes : Nat) : Bool := decide (0 < num_nodes)

/-- Number of RAG nodes a block's run leaves in its own write region.  Write
regions are disjoint and every node a block writes lies in its own write
region, so this is the count `block_done` queries for a freshly processed
block. -/
def nodes_written (r : Option (List Nat × List Nat)) : Nat :=
  match r with
  | none => 0
  | some q => q.2.length

/-- Models get_seeds (src/lsd/fragments.py lines 26-32).  The external steps
(mahotas.distance on `boundary < 0.5`, mahotas.regmax, mahotas.label) are
abstracted by the input `m`: the compact labeling of the detected maxima that
mahotas.label returns, whose values lie in 0..num_seeds.  The modelled part is
`seeds += next_id; seeds[seeds == next_id] = 0` and the unchanged count. -/
def get_seeds (m : List Nat) (num_seeds : Nat) (next_id : Nat) : List Nat × Nat :=
  ((m.map (fun x => x + next_id)).map (fun x => if x = next_id then 0 else x),
   num_seeds)

/-- Models the per-slice loop of watershed_from_affinities (src/lsd/fragments.py
lines 58-80) on the mahotas path (`use_mahotas = True`, the default): for each
depth slice z, seeds are computed at the current id offset via get_seeds, the
slice is labelled by `mahotas.cwatershed(inv_affs[z], seeds)` — abstracted as
the opaque `cw z seeds`, since the cost field inv_affs is a float array — and
the id offset advances by the slice's seed count (`id_offset = ret[1]` with
`ret = (f, id_offset + num_seeds)`).  `slices` holds, per depth slice, the
maxima labeling and seed count that the external mahotas steps produce. -/
def watershed_xy_go (cw : Nat → List Nat → List Nat) :
    Nat → Nat → List (List Nat × Nat) → List (List Nat) × Nat
  | _, id_offset, [] => ([], id_offset)
  | z, id_offset, s :: rest =>
    let sd := get_seeds s.1 s.2 id_offset
    let f := cw z sd.1
    let r := watershed_xy_go cw (z + 1) (id_offset + sd.2) rest
    (f :: r.1, r.2)

/-- The fragments_in_xy branch of watershed_from_affinities: the slice loop
started at id offset 0, returning the per-slice fragment arrays and the final
offset (`ret = (fragments, id_offset)`, line 82). -/
def watershed_xy (cw : Nat → List Nat → List Nat)
    (slices : List (List Nat × Nat)) : List (List Nat) × Nat :=
  watershed_xy_go cw 0 0 slices

/-- Models watershed_from_boundary_distance (src/lsd/fragments.py lines
117-141).  The external steps are abstracted: `lbl = (seeds0, n)` is the
mahotas.label result on the maxima of the boundary-distance field (an array of
`len` voxels), and `cw` is `mahotas.cwatershed` on the inverted field.  The
modelled parts are the `n == 0` early return of `(np.zeros(shape), id_offset)`,
the offset bump `seeds[seeds != 0] += id_offset`, and the shape of the
returned tuple; its optional seeds entry is the third component. -/
def watershed_from_boundary_distance (lbl : List Nat × Nat)
    (cw : List Nat → List Nat) (len : Nat)
    (return_seeds : Bool) (id_offset : Nat) :
    List Nat × Nat × Option (List Nat) :=
  if lbl.2 = 0 then (List.replicate len 0, id_offset, none)
  else
    let seeds := lbl.1.map (fun x => if x ≠ 0 then x + id_offset else x)
    let fragments := cw seeds
    (fragments, lbl.2 + id_offset, if return_seeds then some seeds else none)

/-- Runtime errors of the Python function being modelled. -/
inductive PyError where
  | unboundLocalFragments
  deriving DecidableEq

/-- Models watershed_from_affinities (src/lsd/fragments.py lines 34-115) on
the mahotas path with `return_seeds = False` (the parallel pipeline's call).
3-D numpy arrays are flattened to lists.  Parameters bundle the external
inputs: `cw`/`slices` feed the per-slice branch as in `watershed_xy`,
`lbl3`/`cw3`/`vlen` feed `watershed_from_boundary_distance` for the 3-D
branch, and `agglom` abstracts the waterz epsilon-agglomeration pass
(`fragments[:] = next(generator)`, lines 101-113).  The Python local variable
`fragments` is assigned only inside the `fragments_in_xy` branch (line 54);
the model mirrors this with an Option, and the epsilon pass referencing it
while unassigned yields the UnboundLocalError the interpreter raises.  In the
xy branch `ret[0]` aliases `fragments`, so after the in-place epsilon pass the
function returns the agglomerated array with the unchanged id offset. -/
def watershed_from_affinities
    (cw : Nat → List Nat → List Nat) (slices : List (List Nat × Nat))
    (lbl3 : List Nat × Nat) (cw3 : List Nat → List Nat) (vlen : Nat)
    (agglom : List Nat → List Nat)
    (fragments_in_xy : Bool) (epsilon_agglomerate : Rat) :
    Except PyError (List Nat × Nat) :=
  let xyRes := watershed_xy cw slices
  let fragmentsVar : Option (List Nat) :=
    if fragments_in_xy then some xyRes.1.flatten else none
  let ret : List Nat × Nat :=
    if fragments_in_xy then (xyRes.1.flatten, xyRes.2)
    else
      let w := watershed_from_boundary_distance lbl3 cw3 vlen false 0
      (w.1, w.2.1)
  if 0 < epsilon_agglomerate then
    match fragmentsVar with
    | none => Except.error PyError.unboundLocalFragments
    | some f => Except.ok (agglom f, ret.2)
  else Except.ok ret

/-- Block id 0 with a write region of world-unit size 2 and voxel volume 2,
hence a single-voxel write region; the requested and actual write regions
coincide. -/
def blockA : BlockParams := ⟨0, 2, 2, 2⟩

/-- Same geometry as blockA, block id 1. -/
def blockB : BlockParams := ⟨1, 2, 2, 2⟩

/-- Sum of the seed counts of the first k slices: the id offset at which
slice k starts, relative to the loop's starting offset. -/
def seedCountSum (slices : List (List Nat × Nat)) (k : Nat) : Nat :=
  ((slices.take k).map (fun s => s.2)).sum

/-- Edge attribute record of the in-memory Rag (src/lsd/rag.py): the two flags
documented as "either 0 or 1" plus the remaining attributes (`center_z` and
friends — floats, irrelevant to the claims), abstracted as a list of entries
of an arbitrary type α. -/
structure EdgeData (α : Type) where
  merged : Nat
  agglomerated : Nat
  extra : List α
  deriving DecidableEq

/-- The attribute record `{'merged': 0, 'agglomerated': 0}` that the
weight_func of Rag.__contract_nodes (lines 186-189) puts on every synthesized
edge: both flags 0 and no other attributes. -/
def defaultEdgeData {α : Type} : EdgeData α := ⟨0, 0, []⟩

/-- In-memory region adjacency graph (src/lsd/rag.py, class Rag): an
undirected networkx-style graph with Nat node ids, attributed edges (stored
once per unordered pair) and the per-node `labels` attribute.  The networkx
invariant that every edge endpoint is a node of the graph is stated separately
as `Rag.wf`. -/
structure Rag (α : Type) where
  nodes : List Nat
  edges : List (Nat × Nat × EdgeData α)
  labels : Nat → List Nat

/-- The networkx structural invariant: both endpoints of every edge are nodes. -/
def Rag.wf {α : Type} (g : Rag α) : Prop :=
  ∀ e ∈ g.edges, e.1 ∈ g.nodes ∧ e.2.1 ∈ g.nodes

/-- Whether x and y are joined by an edge whose merged attribute is set — the
edges that get_connected_components copies into its auxiliary merge graph
(lines 70-72: `if data['merged']`, truthiness of the 0/1 flag).  Undirected. -/
def mergedAdj {α : Type} (g : Rag α) (x y : Nat) : Bool :=
  g.edges.any (fun e =>
    decide (e.2.2.merged ≠ 0
      ∧ ((e.1 = x ∧ e.2.1 = y) ∨ (e.1 = y ∧ e.2.1 = x))))

/-- Connectivity along merged edges: the reflexive-transitive closure of
`mergedAdj`.  Same-component in the auxiliary merge graph is exactly this
relation. -/
def mergedReach {α : Type} (g : Rag α) : Nat → Nat → Prop :=
  Relation.ReflTransGen (fun x y => mergedAdj g x y = true)

/-- The node set of the auxiliary merge graph
(`merge_graph.add_nodes_from(self.nodes())`, line 68). -/
def nodeUniverse {α : Type} (g : Rag α) : Finset Nat := g.nodes.toFinset

/-- One breadth step: add every node adjacent (via a merged edge) to the
current set. -/
def expandOnce {α : Type} (g : Rag α) (S : Finset Nat) : Finset Nat :=
  S ∪ (nodeUniverse g).filter (fun y => ∃ x ∈ S, mergedAdj g x y = true)

/-- All nodes connected to `a` along merged edges: the breadth step iterated
until it must have reached its fixed point.  This computes the connected
component of `a` in the auxiliary merge graph of get_connected_components. -/
def componentSet {α : Type} (g : Rag α) (a : Nat) : Finset Nat :=
  (expandOnce g)^[(nodeUniverse g).card] {a}

/-- Worker for get_connected_components: walk the (deduplicated) node list,
emitting the component of each node not contained in an already-emitted
component.  Components are therefore listed by first node, and each component
lists its members in node-list order — standing in for the arbitrary
set-iteration order of `networkx.connected_components`. -/
def gccGo {α : Type} (g : Rag α) : List Nat → List Nat → List (List Nat)
  | [], _ => []
  | x :: rest, visited =>
    if x ∈ visited then gccGo g rest visited
    else
      let comp := g.nodes.dedup.filter (fun y => decide (y ∈ componentSet g x))
      comp :: gccGo g rest (visited ++ comp)

/-- Models Rag.get_connected_components (src/lsd/rag.py lines 63-76): the
connected components of the auxiliary graph that has all of the RAG's nodes
and only its merged edges, returned as a list of lists of node ids. -/
def Rag.get_connected_components {α : Type} (g : Rag α) : List (List Nat) :=
  gccGo g g.nodes.dedup []

/-- Neighbors of a node: the other endpoint of every incident edge. -/
def neighborsOf {α : Type} (g : Rag α) (x : Nat) : List Nat :=
  (g.edges.filterMap (fun e =>
    if e.1 = x then some e.2.1
    else if e.2.1 = x then some e.1 else none)).dedup

/-- The attribute record stored between dst and a node, if such an edge
exists (the graph keeps one orientation per undirected edge). -/
def edgeDataBetween {α : Type} (g : Rag α) (u v : Nat) : Option (EdgeData α) :=
  (g.edges.find? (fun e =>
    decide ((e.1 = u ∧ e.2.1 = v) ∨ (e.1 = v ∧ e.2.1 = u)))).map
    (fun e => e.2.2)

/-- The networkx `add_edge(neighbor, new, attr_dict=data)` semantics with
`data = {'merged': 0, 'agglomerated': 0}`: adding an edge that already exists
UPDATES its attribute dict — the two flags are overwritten with 0 and all
other attributes are retained — while a fresh edge carries exactly the given
dict. -/
def addEdgeData {α : Type} (old : Option (EdgeData α)) : EdgeData α :=
  match old with
  | some d => { d with merged := 0, agglomerated := 0 }
  | none => defaultEdgeData

/-- Models `skimage.future.graph.RAG.merge_nodes(src, dst, weight_func,
in_place=True)` (external) as called by Rag.__contract_nodes with the
weight_func returning `{'merged': 0, 'agglomerated': 0}`: for every neighbor
of src or dst other than src and dst themselves, `self.add_edge(neighbor,
dst, attr_dict=data)` is called, which per the networkx semantics
(`addEdgeData`) updates the dict of a pre-existing (dst, neighbor) edge —
resetting the two flags but RETAINING its other attributes — or creates a
fresh edge holding exactly the weight_func output; then src and all its
incident edges are removed and dst absorbs src's `labels` list.  The model
stores the touched edges in the (neighbor, dst) orientation; edge direction
carries no meaning. -/
def mergeNodes {α : Type} (g : Rag α) (src dst : Nat) : Rag α :=
  let nbrs := ((neighborsOf g src ++ neighborsOf g dst).filter
      (fun n => decide (n ≠ src ∧ n ≠ dst))).dedup
  let kept := g.edges.filter (fun e =>
      decide (e.1 ≠ src ∧ e.2.1 ≠ src
        ∧ ¬(e.1 = dst ∧ e.2.1 ∈ nbrs) ∧ ¬(e.2.1 = dst ∧ e.1 ∈ nbrs)))
  { nodes := g.nodes.erase src
    edges := kept
      ++ nbrs.map (fun n => (n, dst, addEdgeData (edgeDataBetween g dst n)))
    labels := fun n =>
      if n = dst then g.labels src ++ g.labels dst else g.labels n }

/-- The inner loop of Rag.__contract_nodes (lines 179-189): for i in
1..len(component)-1, merge component[i-1] into component[i]; the last node of
the component survives. -/
def mergeChain {α : Type} (g : Rag α) : List Nat → Rag α
  | [] => g
  | [_] => g
  | a :: b :: rest => mergeChain (mergeNodes g a b) (b :: rest)

/-- One iteration of the loop of Rag.__contract_nodes: merge the component's
nodes into its last one and record `component_nodes.append(component[-1])`. -/
def contractStep {α : Type} (acc : Rag α × List Nat) (component : List Nat) :
    Rag α × List Nat :=
  (mergeChain acc.1 component, acc.2 ++ [component.getLast?.getD 0])

/-- Models Rag.__contract_nodes (src/lsd/rag.py lines 167-193): contract each
component to its last node via the merge chain, collecting
`component_nodes.append(component[-1])`.  (The preceding
__add_esential_node_attributes call only initializes the `labels` attribute,
which is total in this model.) -/
def contractNodes {α : Type} (g : Rag α) (components : List (List Nat)) :
    Rag α × List Nat :=
  components.foldl contractStep (g, [])

/-- One write into the lookup table of Rag.__relabel:
`if c < len(values_map): values_map[c] = label`. -/
def vmWrite (lab : Nat) (vm : List Nat) (c : Nat) : List Nat :=
  if c < vm.length then vm.set c lab else vm

/-- The effect of one component on the lookup table: write the component's
label at the index of each of its members that fits in the table. -/
def vmComponent (vm : List Nat) (cl : List Nat × Nat) : List Nat :=
  cl.1.foldl (vmWrite cl.2) vm

/-- Models Rag.__relabel (src/lsd/rag.py lines 195-204): build
`values_map = np.arange(array.max() + 1)`, overwrite the entry of every
component member below the table size with the component's label, and apply
the table to the array (`array[:] = values_map[array]`; every array value is
at most the max, hence in range, so the model's fallback default is inert). -/
def relabelArray (array : List Nat) (components : List (List Nat))
    (component_labels : List Nat) : List Nat :=
  let values_map :=
    (components.zip component_labels).foldl vmComponent
      (List.range (listMax array + 1))
  array.map (fun v => values_map.getD v v)

/-- Models Rag.contract_merged_nodes (src/lsd/rag.py lines 93-118): compute
the merged connected components, contract each to a single node, and — when a
fragments array is supplied — relabel it through __relabel with the computed
components and their representative nodes. -/
def Rag.contract_merged_nodes {α : Type} (g : Rag α)
    (fragments : Option (List Nat)) : Rag α × Option (List Nat) :=
  let components := g.get_connected_components
  let cn := contractNodes g components
  (cn.1, fragments.map (fun arr => relabelArray arr components cn.2))

/-- Decidability of the networkx well-formedness invariant. -/
instance {α : Type} (g : Rag α) : Decidable g.wf := by
  unfold Rag.wf
  infer_instance

/-- Two nodes lie in one of the components returned by
get_connected_components. -/
def inSameComponent {α : Type} (g : Rag α) (x y : Nat) : Prop :=
  ∃ comp ∈ g.get_connected_components, x ∈ comp ∧ y ∈ comp

instance {α : Type} (g : Rag α) (x y : Nat) :
    Decidable (inSameComponent g x y) := by
  unfold inSameComponent
  infer_instance

/-- A three-node RAG in which edges (1,2) and (2,3) are merged and no edge
(1,3) exists. -/
def ragChain : Rag Unit :=
  ⟨[1, 2, 3], [(1, 2, ⟨1, 0, []⟩), (2, 3, ⟨1, 0, []⟩)], fun n => [n]⟩

/-- A two-node RAG with a single merged edge; its only component is [1, 2]
with representative 2. -/
def ragPair : Rag Unit :=
  ⟨[1, 2], [(1, 2, ⟨1, 1, []⟩)], fun n => [n]⟩

/-- A three-node RAG with a merged edge (1,2) and an unmerged edge (2,3)
whose record carries the flag `agglomerated = 1` and one non-flag attribute
entry (standing for `center_z/y/x`); contracting [1,2] makes node 2 absorb
node 1 and re-adds the edge between 2 and its surviving neighbor 3. -/
def ragTri : Rag Unit :=
  ⟨[1, 2, 3], [(1, 2, ⟨1, 0, []⟩), (2, 3, ⟨0, 1, [()]⟩)], fun n => [n]⟩

/-- Helper: an all-zero array has max 0. -/
theorem listMax_eq_zero {l : List Nat} (h : ∀ x ∈ l, x = 0) : listMax l = 0 := by
  induction l with
  | nil => rfl
  | cons a t ih =>
    have ha := h a (List.mem_cons_self a t)
    have ht := ih (fun x hx => h x (List.mem_cons_of_mem a hx))
    simp [listMax] at ht ⊢
    exact ⟨ha, ht⟩

/-- Helper: the fragment data a successful watershed_in_block run writes is the
cropped data, compacted if the world-unit guard fired, with the id bump added
to the positive labels. -/
theorem watershed_in_block_frags_eq {p : BlockParams} {cropped : List Nat}
    {n0 : Nat} {frags nodes : List Nat}
    (h : watershed_in_block p cropped n0 = some (frags, nodes)) :
    frags = (if listMax cropped > p.writeRoiSize then (relabel cropped).1
             else cropped).map (fun x => if 0 < x then x + id_bump p else x) := by
  unfold watershed_in_block at h
  by_cases hc : listMax cropped > p.writeRoiSize
  · simp only [if_pos hc] at h ⊢
    split at h
    · exact absurd h (by simp)
    · injection h with h1
      exact (congrArg Prod.fst h1).symm
  · simp only [if_neg hc] at h ⊢
    split at h
    · exact absurd h (by simp)
    · injection h with h1
      exact (congrArg Prod.fst h1).symm

/-- C10: if mahotas.label finds no maxima in the boundary-distance field
(zero seeds), watershed_from_boundary_distance returns an all-zero array of
the field's size together with the unchanged id_offset, the result does not
depend on the watershed `cw` (it is never invoked), and the returned tuple
carries no seeds entry even when return_seeds is true. -/
theorem c10_zero_seeds_returns_zeros (seeds0 : List Nat)
    (cw : List Nat → List Nat) (len : Nat) (return_seeds : Bool)
    (id_offset : Nat) :
    watershed_from_boundary_distance (seeds0, 0) cw len return_seeds id_offset
      = (List.replicate len 0, id_offset, none) := rfl


/-- C2, evaluated at the failing input: blockA's write region holds
num_voxels_in_block = 1 voxel and its cropped fragment data [2] has max label
2 > 1, so the claim (and the code's own comment, lines 172-173: "ensure we
don't have IDs larger than the number of voxels") mandates a compacting
relabel, which would produce [1]; but the guard on line 175 compares the max
label against `block.write_roi.size()` = 2 world units, does not fire, and the
block's data is written un-compacted. -/
theorem c2_no_relabel_despite_exceeding_voxel_count :
    2 > num_voxels_in_block blockA
    ∧ watershed_in_block blockA [2] 2 = some ([2], [2])
    ∧ (relabel [2]).1 = [1] := by decide

/-- C1, evaluated at the failing input: blockA and blockB have different block
ids but the same block shape and voxel size, yet both emit fragment id 2 to
the output array and to the RAG store, because the relabel guard meant to keep
each block's ids within its voxel budget compares against the write region's
world-unit size instead of its voxel count. -/
theorem c1_distinct_blocks_emit_same_id :
    blockA.blockId ≠ blockB.blockId
    ∧ blockA.writeRoiSize = blockB.writeRoiSize
    ∧ blockA.requestedWriteRoiSize = blockB.requestedWriteRoiSize
    ∧ blockA.voxelVolume = blockB.voxelVolume
    ∧ 2 ∈ emitted_ids blockA [2] 2
    ∧ 2 ∈ emitted_ids blockB [1] 1 := by decide

/-- C3 counterexample: a block whose watershed finds zero fragments (all-zero
data, fragment count 0) returns early without writing anything, and block_done
over its write region — which then holds 0 nodes — returns false: the block is
NOT reported done, contrary to the claim. -/
theorem c3_zero_fragment_block_reported_not_done :
    watershed_in_block ⟨0, 1, 1, 1⟩ [0] 0 = none
    ∧ block_done (nodes_written (watershed_in_block ⟨0, 1, 1, 1⟩ [0] 0))
        = false := by decide

/-- C3 as amended: if watershed over a block's (possibly masked) affinities
produces zero fragments, watershed_in_block returns normally without writing
anything to the RAG store (or to the output array), but the completion
predicate block_done — which asks for `num_nodes > 0` — reports the block as
NOT done. -/
theorem c3_zero_fragments_nothing_written_not_done
    (p : BlockParams) (cropped : List Nat) (n0 : Nat)
    (hz : ∀ x ∈ cropped, x = 0) (hn : n0 = 0) :
    watershed_in_block p cropped n0 = none
    ∧ block_done (nodes_written (watershed_in_block p cropped n0)) = false := by
  have hmax : listMax cropped = 0 := listMax_eq_zero hz
  have hres : watershed_in_block p cropped n0 = none := by
    simp [watershed_in_block, hmax, hn]
  exact ⟨hres, by rw [hres]; rfl⟩

/-- Witness for c3_zero_fragments_nothing_written_not_done at a concrete
block with all-zero cropped data. -/
theorem c3_witness :
    watershed_in_block ⟨1, 1, 1, 1⟩ [0, 0] 0 = none
    ∧ block_done (nodes_written (watershed_in_block ⟨1, 1, 1, 1⟩ [0, 0] 0))
        = false :=
  c3_zero_fragments_nothing_written_not_done ⟨1, 1, 1, 1⟩ [0, 0] 0
    (by decide) rfl

/-- Helper: a voxel zeroed by the mask is zero after masking. -/
theorem apply_mask_get?_zero :
    ∀ (data mask : List Nat) (i : Nat), mask.get? i = some 0 →
      i < data.length → (apply_mask data mask).get? i = some 0
  | [], _, i, _, hd => absurd hd (by simp)
  | _ :: _, [], i, hm, _ => absurd hm (by simp)
  | d :: _, m :: _, 0, hm, _ => by
    have : m = 0 := by simpa using hm
    simp [apply_mask, this]
  | d :: ds, m :: ms, i + 1, hm, hd => by
    have := apply_mask_get?_zero ds ms i (by simpa using hm)
      (by simpa using Nat.lt_of_succ_lt_succ hd)
    simpa [apply_mask] using this

/-- C9: the per-block id offset is added only to strictly positive labels,
so a voxel that is 0 after extraction and masking — either because the
masked extraction produced 0 there, or because the mask zeroed it — is still 0
in the fragment data written to the output array; the background label is
never shifted into the valid fragment id range. -/
theorem c9_background_never_bumped (p : BlockParams) (data mask : List Nat)
    (n0 i : Nat) (frags nodes : List Nat)
    (h : watershed_in_block p (apply_mask data mask) n0 = some (frags, nodes))
    (hzero : (apply_mask data mask).get? i = some 0
      ∨ (mask.get? i = some 0 ∧ i < data.length)) :
    frags.get? i = some 0 := by
  have hz : (apply_mask data mask).get? i = some 0 := by
    rcases hzero with hz | ⟨hm, hd⟩
    · exact hz
    · exact apply_mask_get?_zero data mask i hm hd
  have hf := watershed_in_block_frags_eq h
  by_cases hc : listMax (apply_mask data mask) > p.writeRoiSize
  · rw [if_pos hc] at hf
    subst hf
    simp only [relabel, List.map_map, List.get?_map, hz]
    simp
  · rw [if_neg hc] at hf
    subst hf
    simp only [List.get?_map, hz]
    simp

/-- Witness for c9_background_never_bumped: a single-voxel block whose voxel
is masked out. -/
theorem c9_witness : ([0] : List Nat).get? 0 = some 0 :=
  c9_background_never_bumped ⟨0, 1, 1, 1⟩ [5] [0] 1 0 [0] []
    (by decide) (Or.inr ⟨rfl, by decide⟩)

/-- C4, evaluated symbolically at the failing mode: with fragments_in_xy =
False and epsilon_agglomerate > 0, watershed_from_affinities raises
UnboundLocalError — the local variable `fragments` that the epsilon pass
passes to waterz.agglomerate is assigned only in the fragments_in_xy branch —
instead of performing the extra agglomeration pass and returning the
(fragments, max id) result. -/
theorem c4_three_d_epsilon_raises
    (cw : Nat → List Nat → List Nat) (slices : List (List Nat × Nat))
    (lbl3 : List Nat × Nat) (cw3 : List Nat → List Nat) (vlen : Nat)
    (agglom : List Nat → List Nat) (epsilon_agglomerate : Rat)
    (heps : 0 < epsilon_agglomerate) :
    watershed_from_affinities cw slices lbl3 cw3 vlen agglom false
        epsilon_agglomerate
      = Except.error PyError.unboundLocalFragments := by
  simp [watershed_from_affinities, heps]

/-- Witness for c4_three_d_epsilon_raises at concrete external inputs and
epsilon 1. -/
theorem c4_witness :
    watershed_from_affinities (fun _ s => s) [] ([], 0) id 0 id false 1
      = Except.error PyError.unboundLocalFragments :=
  c4_three_d_epsilon_raises _ _ _ _ _ _ 1 (by norm_num)


/-- Helper: seedCountSum grows by at most one slice count per step. -/
theorem seedCountSum_le_succ (slices : List (List Nat × Nat)) (k : Nat) :
    seedCountSum slices k ≤ seedCountSum slices (k + 1) := by
  unfold seedCountSum
  rw [List.take_succ]
  simp

/-- Helper: seedCountSum is monotone. -/
theorem seedCountSum_mono (slices : List (List Nat × Nat)) :
    Monotone (seedCountSum slices) :=
  monotone_nat_of_le_succ (seedCountSum_le_succ slices)

/-- Helper: a seed produced by get_seeds is 0 or lies in the half-open id
interval that the slice owns. -/
theorem get_seeds_mem {m : List Nat} {k next_id x : Nat}
    (hm : ∀ y ∈ m, y ≤ k) (hx : x ∈ (get_seeds m k next_id).1) :
    x = 0 ∨ (next_id < x ∧ x ≤ next_id + k) := by
  simp only [get_seeds, List.map_map, List.mem_map, Function.comp] at hx
  obtain ⟨y, hy, hxy⟩ := hx
  by_cases hy0 : y = 0
  · subst hy0
    simp at hxy
    exact Or.inl hxy.symm
  · have hne : y + next_id ≠ next_id := by omega
    rw [if_neg hne] at hxy
    subst hxy
    exact Or.inr ⟨by omega, by have := hm y hy; omega⟩

/-- Helper: every non-zero label in slice i of the loop's output lies in the
id interval (off + seedCountSum i, off + seedCountSum (i+1)]. -/
theorem watershed_xy_go_slice_mem
    (cw : Nat → List Nat → List Nat)
    (hcw : ∀ z s v, v ∈ cw z s → v = 0 ∨ v ∈ s) :
    ∀ (slices : List (List Nat × Nat)) (z off i v : Nat),
      (∀ s ∈ slices, ∀ x ∈ s.1, x ≤ s.2) →
      v ∈ (watershed_xy_go cw z off slices).1.getD i [] →
      v = 0 ∨ (off + seedCountSum slices i < v
               ∧ v ≤ off + seedCountSum slices (i + 1))
  | [], z, off, i, v, _, hv => absurd hv (by simp [watershed_xy_go])
  | s :: rest, z, off, 0, v, hm, hv => by
    simp only [watershed_xy_go, List.getD_cons_zero] at hv
    rcases hcw z _ v hv with h0 | hs
    · exact Or.inl h0
    · rcases get_seeds_mem (hm s (List.mem_cons_self s rest)) hs with h0 | hin
      · exact Or.inl h0
      · refine Or.inr ?_
        have h1 : seedCountSum (s :: rest) 0 = 0 := rfl
        have h2 : seedCountSum (s :: rest) 1 = s.2 := by
          simp [seedCountSum]
        rw [h1, h2]
        omega
  | s :: rest, z, off, i + 1, v, hm, hv => by
    simp only [watershed_xy_go, List.getD_cons_succ] at hv
    have ih := watershed_xy_go_slice_mem cw hcw rest (z + 1) (off + s.2) i v
      (fun t ht x hx => hm t (List.mem_cons_of_mem s ht) x hx) hv
    rcases ih with h0 | hin
    · exact Or.inl h0
    · refine Or.inr ?_
      have h1 : seedCountSum (s :: rest) (i + 1) = s.2 + seedCountSum rest i := by
        simp [seedCountSum, List.take_succ_cons]
      have h2 : seedCountSum (s :: rest) (i + 2) = s.2 + seedCountSum rest (i + 1) := by
        simp [seedCountSum, List.take_succ_cons]
      rw [h1, h2]
      omega

/-- Helper: the ordered case of the C5 disjointness statement. -/
theorem watershed_xy_disjoint_lt
    (cw : Nat → List Nat → List Nat) (slices : List (List Nat × Nat))
    (hm : ∀ s ∈ slices, ∀ x ∈ s.1, x ≤ s.2)
    (hcw : ∀ z s v, v ∈ cw z s → v = 0 ∨ v ∈ s)
    {i j v : Nat} (hij : i < j)
    (hvi : v ∈ (watershed_xy cw slices).1.getD i [])
    (hvj : v ∈ (watershed_xy cw slices).1.getD j []) : v = 0 := by
  rcases watershed_xy_go_slice_mem cw hcw slices 0 0 i v hm hvi with h0 | hi
  · exact h0
  rcases watershed_xy_go_slice_mem cw hcw slices 0 0 j v hm hvj with h0 | hj
  · exact h0
  have hle : seedCountSum slices (i + 1) ≤ seedCountSum slices j :=
    seedCountSum_mono slices hij
  omega

/-- C5: in per-slice mode (the fragments_in_xy branch of
watershed_from_affinities), fragments are extracted independently per depth
slice with the id offset advanced by each slice's seed count, so the sets of
non-zero fragment labels of two distinct depth slices are disjoint: a label
shared by two distinct slices can only be the background 0.  The hypotheses
record the documented behaviour of the external mahotas primitives: the
maxima labeling of a slice is compact (values at most the seed count), and
cwatershed labels every voxel with 0 or one of its seed values. -/
theorem c5_distinct_slices_disjoint_ids
    (cw : Nat → List Nat → List Nat) (slices : List (List Nat × Nat))
    (hm : ∀ s ∈ slices, ∀ x ∈ s.1, x ≤ s.2)
    (hcw : ∀ z s v, v ∈ cw z s → v = 0 ∨ v ∈ s)
    (i j v : Nat) (hij : i ≠ j)
    (hvi : v ∈ (watershed_xy cw slices).1.getD i [])
    (hvj : v ∈ (watershed_xy cw slices).1.getD j []) : v = 0 := by
  rcases Nat.lt_trichotomy i j with h | h | h
  · exact watershed_xy_disjoint_lt cw slices hm hcw h hvi hvj
  · exact absurd h hij
  · exact watershed_xy_disjoint_lt cw slices hm hcw h hvj hvi

/-- Witness for c5_distinct_slices_disjoint_ids: two one-voxel slices, one
seed each, with a cwatershed that also emits background. -/
theorem c5_witness : (0 : Nat) = 0 :=
  c5_distinct_slices_disjoint_ids (fun _ s => 0 :: s) [([1], 1), ([1], 1)]
    (by decide) (fun z s v hv => by simpa using hv)
    0 1 0 (by decide) (by decide) (by decide)


/-- Helper: merged adjacency is symmetric. -/
theorem mergedAdj_symm {α : Type} {g : Rag α} {x y : Nat}
    (h : mergedAdj g x y = true) : mergedAdj g y x = true := by
  simp only [mergedAdj, List.any_eq_true, decide_eq_true_eq] at h ⊢
  obtain ⟨e, he, hm, hxy⟩ := h
  exact ⟨e, he, hm, hxy.symm⟩

/-- Helper: in a well-formed RAG, merged adjacency only relates nodes. -/
theorem mergedAdj_mem_nodes {α : Type} {g : Rag α} {x y : Nat} (hw : g.wf)
    (h : mergedAdj g x y = true) : x ∈ g.nodes ∧ y ∈ g.nodes := by
  simp only [mergedAdj, List.any_eq_true, decide_eq_true_eq] at h
  obtain ⟨e, he, _, hxy⟩ := h
  have hn := hw e he
  rcases hxy with ⟨h1, h2⟩ | ⟨h1, h2⟩
  · subst h1; subst h2; exact ⟨hn.1, hn.2⟩
  · subst h1; subst h2; exact ⟨hn.2, hn.1⟩

/-- Helper: merged reachability is symmetric. -/
theorem mergedReach_symm {α : Type} {g : Rag α} {x y : Nat}
    (h : mergedReach g x y) : mergedReach g y x :=
  Relation.ReflTransGen.symmetric (fun _ _ => mergedAdj_symm) h

/-- Helper: a set is contained in its breadth step. -/
theorem subset_expandOnce {α : Type} (g : Rag α) (S : Finset Nat) :
    S ⊆ expandOnce g S :=
  Finset.subset_union_left

/-- Helper: the breadth step stays inside the node universe. -/
theorem expandOnce_subset_universe {α : Type} (g : Rag α) {S : Finset Nat}
    (hS : S ⊆ nodeUniverse g) : expandOnce g S ⊆ nodeUniverse g := by
  intro x hx
  rcases Finset.mem_union.mp hx with h | h
  · exact hS h
  · exact (Finset.mem_filter.mp h).1

/-- Helper: iterating the breadth step stays inside the node universe. -/
theorem iterate_subset_universe {α : Type} (g : Rag α) {S : Finset Nat}
    (hS : S ⊆ nodeUniverse g) :
    ∀ n, (expandOnce g)^[n] S ⊆ nodeUniverse g := by
  intro n
  induction n with
  | zero => exact hS
  | succ n ih =>
    rw [Function.iterate_succ_apply']
    exact expandOnce_subset_universe g ih

/-- Helper: the iterated breadth step is an increasing chain. -/
theorem iterate_le_succ {α : Type} (g : Rag α) (S : Finset Nat) (n : Nat) :
    (expandOnce g)^[n] S ⊆ (expandOnce g)^[n + 1] S := by
  rw [Function.iterate_succ_apply']
  exact subset_expandOnce g _

/-- Helper: the start set is contained in every iterate. -/
theorem subset_iterate {α : Type} (g : Rag α) (S : Finset Nat) :
    ∀ n, S ⊆ (expandOnce g)^[n] S := by
  intro n
  induction n with
  | zero => exact Finset.Subset.refl S
  | succ n ih => exact ih.trans (iterate_le_succ g S n)

/-- Helper: once the breadth step stalls it stays stalled. -/
theorem iterate_stab {α : Type} (g : Rag α) (S : Finset Nat) (k : Nat)
    (h : (expandOnce g)^[k + 1] S = (expandOnce g)^[k] S) :
    ∀ d, (expandOnce g)^[k + d] S = (expandOnce g)^[k] S := by
  intro d
  induction d with
  | zero => rfl
  | succ d ih =>
    have hstep : k + (d + 1) = (k + d) + 1 := rfl
    rw [hstep, Function.iterate_succ_apply', ih]
    exact (Function.iterate_succ_apply' (expandOnce g) k S).symm.trans h

/-- Helper: while the breadth step keeps making progress, its cardinality
strictly grows. -/
theorem iterate_card_grow {α : Type} (g : Rag α) (S : Finset Nat) :
    ∀ n, (∀ k < n, (expandOnce g)^[k + 1] S ≠ (expandOnce g)^[k] S) →
      S.card + n ≤ ((expandOnce g)^[n] S).card := by
  intro n
  induction n with
  | zero => simp
  | succ n ih =>
    intro h
    have hne := h n (Nat.lt_succ_self n)
    have hss : (expandOnce g)^[n] S ⊂ (expandOnce g)^[n + 1] S :=
      Finset.ssubset_iff_subset_ne.mpr ⟨iterate_le_succ g S n, fun he => hne he.symm⟩
    have hcard := Finset.card_lt_card hss
    have ihh := ih (fun k hk => h k (Nat.lt_succ_of_lt hk))
    omega

/-- Helper: after card-many steps the breadth step from a node has reached its
fixed point. -/
theorem componentSet_fixed {α : Type} (g : Rag α) (a : Nat)
    (ha : a ∈ nodeUniverse g) :
    expandOnce g (componentSet g a) = componentSet g a := by
  unfold componentSet
  set N := (nodeUniverse g).card with hN
  by_cases hstall : ∃ k < N, (expandOnce g)^[k + 1] ({a} : Finset Nat)
      = (expandOnce g)^[k] ({a} : Finset Nat)
  · obtain ⟨k, hk, hfix⟩ := hstall
    have h1 := iterate_stab g {a} k hfix (N - k)
    have h2 := iterate_stab g {a} k hfix (N + 1 - k)
    have e1 : k + (N - k) = N := by omega
    have e2 : k + (N + 1 - k) = N + 1 := by omega
    rw [e1] at h1
    rw [e2] at h2
    exact (Function.iterate_succ_apply' (expandOnce g) N {a}).symm.trans
      (h2.trans h1.symm)
  · push_neg at hstall
    have hgrow := iterate_card_grow g {a} N hstall
    have hsub : ({a} : Finset Nat) ⊆ nodeUniverse g := by
      intro x hx
      rw [Finset.mem_singleton.mp hx]
      exact ha
    have hbound := Finset.card_le_card (iterate_subset_universe g hsub N)
    simp at hgrow
    omega

/-- Helper: everything the breadth step reaches from {a} is merged-reachable
from a. -/
theorem mem_iterate_reach {α : Type} (g : Rag α) (a : Nat) :
    ∀ n x, x ∈ (expandOnce g)^[n] ({a} : Finset Nat) → mergedReach g a x := by
  intro n
  induction n with
  | zero =>
    intro x hx
    have hxa := Finset.mem_singleton.mp hx
    subst hxa
    exact Relation.ReflTransGen.refl
  | succ n ih =>
    intro x hx
    rw [Function.iterate_succ_apply'] at hx
    rcases Finset.mem_union.mp hx with h | h
    · exact ih x h
    · obtain ⟨_, p, hp, hadj⟩ := Finset.mem_filter.mp h
      exact Relation.ReflTransGen.tail (ih p hp) hadj

/-- Helper: a one-step neighbor of a member joins the expanded set. -/
theorem mem_expandOnce_of_adj {α : Type} {g : Rag α} {S : Finset Nat}
    {p q : Nat} (hw : g.wf) (hp : p ∈ S) (hadj : mergedAdj g p q = true) :
    q ∈ expandOnce g S := by
  refine Finset.mem_union_right _ (Finset.mem_filter.mpr ⟨?_, p, hp, hadj⟩)
  exact List.mem_toFinset.mpr (mergedAdj_mem_nodes hw hadj).2

/-- Helper: the component set of a contains a. -/
theorem mem_componentSet_self {α : Type} (g : Rag α) (a : Nat) :
    a ∈ componentSet g a :=
  subset_iterate g {a} _ (Finset.mem_singleton_self a)

/-- Helper: everything merged-reachable from a node is in its component set. -/
theorem reach_mem_componentSet {α : Type} {g : Rag α} {a x : Nat} (hw : g.wf)
    (ha : a ∈ nodeUniverse g) (hr : mergedReach g a x) :
    x ∈ componentSet g a := by
  induction hr with
  | refl => exact mem_componentSet_self g a
  | tail hab hbc ih =>
    have := mem_expandOnce_of_adj hw ih hbc
    rwa [componentSet_fixed g a ha] at this

/-- Helper: the component set of a node is exactly its merged-reachability
class. -/
theorem mem_componentSet_iff {α : Type} {g : Rag α} {a x : Nat} (hw : g.wf)
    (ha : a ∈ nodeUniverse g) :
    x ∈ componentSet g a ↔ mergedReach g a x :=
  ⟨mem_iterate_reach g a _ x, reach_mem_componentSet hw ha⟩

/-- Helper: every emitted component is the filtered merged-reachability class
of some yet-unvisited node of the remaining work list. -/
theorem gccGo_comp_spec {α : Type} (g : Rag α) :
    ∀ (rest visited : List Nat) (c : List Nat), c ∈ gccGo g rest visited →
      ∃ x, x ∈ rest ∧ x ∉ visited
        ∧ c = g.nodes.dedup.filter (fun y => decide (y ∈ componentSet g x))
  | [], _, c, hc => absurd hc (by simp [gccGo])
  | n :: rest, visited, c, hc => by
    by_cases hn : n ∈ visited
    · simp only [gccGo, if_pos hn] at hc
      obtain ⟨x, hx1, hx2, hx3⟩ := gccGo_comp_spec g rest visited c hc
      exact ⟨x, List.mem_cons_of_mem n hx1, hx2, hx3⟩
    · simp only [gccGo, if_neg hn] at hc
      rcases List.mem_cons.mp hc with hc | hc
      · exact ⟨n, List.mem_cons_self n rest, hn, hc⟩
      · obtain ⟨x, hx1, hx2, hx3⟩ := gccGo_comp_spec g rest _ c hc
        exact ⟨x, List.mem_cons_of_mem n hx1,
          fun hxv => hx2 (List.mem_append_left _ hxv), hx3⟩

/-- Helper: every node of the work list ends up in some emitted component or
was already visited. -/
theorem gccGo_cover {α : Type} (g : Rag α) :
    ∀ (rest visited : List Nat), rest ⊆ g.nodes.dedup →
      ∀ x ∈ rest, (∃ c ∈ gccGo g rest visited, x ∈ c) ∨ x ∈ visited
  | [], _, _, x, hx => absurd hx (by simp)
  | n :: rest, visited, hsub, x, hx => by
    by_cases hn : n ∈ visited
    · simp only [gccGo, if_pos hn]
      rcases List.mem_cons.mp hx with hxn | hxr
      · subst hxn
        exact Or.inr hn
      · exact gccGo_cover g rest visited
          (fun z hz => hsub (List.mem_cons_of_mem n hz)) x hxr
    · simp only [gccGo, if_neg hn]
      have hcomp : n ∈ g.nodes.dedup.filter
          (fun y => decide (y ∈ componentSet g n)) :=
        List.mem_filter.mpr ⟨hsub (List.mem_cons_self n rest),
          by simpa using mem_componentSet_self g n⟩
      rcases List.mem_cons.mp hx with hxn | hxr
      · subst hxn
        exact Or.inl ⟨_, List.mem_cons_self _ _, hcomp⟩
      · rcases gccGo_cover g rest _
          (fun z hz => hsub (List.mem_cons_of_mem n hz)) x hxr with
          ⟨c, hc, hxc⟩ | hv
        · exact Or.inl ⟨c, List.mem_cons_of_mem _ hc, hxc⟩
        · rcases List.mem_append.mp hv with hv | hv
          · exact Or.inr hv
          · exact Or.inl ⟨_, List.mem_cons_self _ _, hv⟩

/-- Helper: node-list membership transfers into the node universe. -/
theorem mem_universe_of_dedup {α : Type} {g : Rag α} {x : Nat}
    (h : x ∈ g.nodes.dedup) : x ∈ nodeUniverse g :=
  List.mem_toFinset.mpr (List.mem_dedup.mp h)

/-- Helper: the emitted components avoid the visited set and are pairwise
disjoint, provided the visited set is closed under merged reachability. -/
theorem gccGo_disjoint {α : Type} (g : Rag α) (hw : g.wf) :
    ∀ (rest visited : List Nat), rest ⊆ g.nodes.dedup →
      (∀ y ∈ visited, ∀ z, z ∈ g.nodes.dedup → mergedReach g y z → z ∈ visited) →
      (∀ c ∈ gccGo g rest visited, ∀ y ∈ c, y ∉ visited)
      ∧ List.Pairwise (fun c d => ∀ y ∈ c, y ∉ d) (gccGo g rest visited)
  | [], _, _, _ => by constructor <;> simp [gccGo]
  | n :: rest, visited, hsub, hclosed => by
    by_cases hn : n ∈ visited
    · simp only [gccGo, if_pos hn]
      exact gccGo_disjoint g hw rest visited
        (fun z hz => hsub (List.mem_cons_of_mem n hz)) hclosed
    · simp only [gccGo, if_neg hn]
      have hnu : n ∈ nodeUniverse g :=
        mem_universe_of_dedup (hsub (List.mem_cons_self n rest))
      set comp := g.nodes.dedup.filter
        (fun y => decide (y ∈ componentSet g n)) with hcompdef
      have hcompmem : ∀ y ∈ comp, y ∈ g.nodes.dedup ∧ mergedReach g n y := by
        intro y hy
        have hmf := List.mem_filter.mp hy
        exact ⟨hmf.1, (mem_componentSet_iff hw hnu).mp (of_decide_eq_true hmf.2)⟩
      have hcompfull : ∀ z, z ∈ g.nodes.dedup → mergedReach g n z → z ∈ comp := by
        intro z hz hr
        have hzc : z ∈ componentSet g n := reach_mem_componentSet hw hnu hr
        exact List.mem_filter.mpr ⟨hz, decide_eq_true hzc⟩
      have hdisc : ∀ y ∈ comp, y ∉ visited := by
        intro y hy hyv
        have hr := mergedReach_symm (hcompmem y hy).2
        exact hn (hclosed y hyv n (hsub (List.mem_cons_self n rest)) hr)
      have hclosed2 : ∀ y ∈ visited ++ comp, ∀ z, z ∈ g.nodes.dedup →
          mergedReach g y z → z ∈ visited ++ comp := by
        intro y hy z hz hr
        rcases List.mem_append.mp hy with hyv | hyc
        · exact List.mem_append_left _ (hclosed y hyv z hz hr)
        · exact List.mem_append_right _
            (hcompfull z hz ((hcompmem y hyc).2.trans hr))
      have ih := gccGo_disjoint g hw rest (visited ++ comp)
        (fun z hz => hsub (List.mem_cons_of_mem n hz)) hclosed2
      refine ⟨?_, ?_⟩
      · intro c hc y hy
        rcases List.mem_cons.mp hc with hcc | hcc
        · subst hcc
          exact hdisc y hy
        · exact fun hyv => ih.1 c hcc y hy (List.mem_append_left _ hyv)
      · refine List.pairwise_cons.mpr ⟨?_, ih.2⟩
        intro d hd y hyc hyd
        exact ih.1 d hd y hyd (List.mem_append_right _ hyc)


/-- Helper: every node of the RAG appears in a returned component. -/
theorem inSameComponent_self {α : Type} {g : Rag α} {x : Nat}
    (hx : x ∈ g.nodes) : inSameComponent g x x := by
  have hxd : x ∈ g.nodes.dedup := List.mem_dedup.mpr hx
  rcases gccGo_cover g g.nodes.dedup [] (fun z hz => hz) x hxd with
    ⟨c, hc, hxc⟩ | hv
  · exact ⟨c, hc, hxc, hxc⟩
  · exact absurd hv (by simp)

/-- Helper: each returned component is, extensionally, the merged-reachability
class over the node set of one of the RAG's nodes. -/
theorem mem_comp_characterize {α : Type} {g : Rag α} (hw : g.wf)
    {c : List Nat} (hc : c ∈ g.get_connected_components) :
    ∃ r, r ∈ g.nodes ∧ ∀ y, y ∈ c ↔ (y ∈ g.nodes ∧ mergedReach g r y) := by
  obtain ⟨x, hx1, _, hx3⟩ := gccGo_comp_spec g g.nodes.dedup [] c hc
  refine ⟨x, List.mem_dedup.mp hx1, ?_⟩
  intro y
  subst hx3
  constructor
  · intro hy
    have hmf := List.mem_filter.mp hy
    refine ⟨List.mem_dedup.mp hmf.1, ?_⟩
    exact (mem_componentSet_iff hw (mem_universe_of_dedup hx1)).mp
      (of_decide_eq_true hmf.2)
  · intro hy
    refine List.mem_filter.mpr ⟨List.mem_dedup.mpr hy.1, ?_⟩
    exact decide_eq_true
      (reach_mem_componentSet hw (mem_universe_of_dedup hx1) hy.2)

/-- Helper: same returned component is the same thing as merged
reachability, for nodes of the RAG. -/
theorem inSameComponent_iff_reach {α : Type} {g : Rag α} (hw : g.wf)
    {x y : Nat} (hx : x ∈ g.nodes) (hy : y ∈ g.nodes) :
    inSameComponent g x y ↔ mergedReach g x y := by
  constructor
  · rintro ⟨c, hc, hxc, hyc⟩
    obtain ⟨r, _, hch⟩ := mem_comp_characterize hw hc
    have h1 := (hch x).mp hxc
    have h2 := (hch y).mp hyc
    exact (mergedReach_symm h1.2).trans h2.2
  · intro hr
    obtain ⟨c, hc, hxc, -⟩ := inSameComponent_self hx
    obtain ⟨r, _, hch⟩ := mem_comp_characterize hw hc
    have h1 := (hch x).mp hxc
    have hyc : y ∈ c := (hch y).mpr ⟨hy, h1.2.trans hr⟩
    exact ⟨c, hc, hxc, hyc⟩

/-- C6: for a (well-formed) RAG, get_connected_components computes exactly the
connected components of the subgraph containing only the merged edges, over
the full node set: (i) if edges (a,b) and (b,c) are merged, then a, b and c
are returned inside one component, even though no (a,c) edge need exist;
(ii) every node appears in a returned component; (iii) two nodes share a
returned component precisely when a path of merged edges connects them; and
(iv) the returned components contain only nodes of the RAG. -/
theorem c6_merged_components {α : Type} (g : Rag α) (a b c x y : Nat)
    (comp : List Nat) (hw : g.wf) :
    (mergedAdj g a b = true → mergedAdj g b c = true →
      ∃ d ∈ g.get_connected_components, a ∈ d ∧ b ∈ d ∧ c ∈ d)
    ∧ (x ∈ g.nodes → inSameComponent g x x)
    ∧ (x ∈ g.nodes → y ∈ g.nodes →
        (inSameComponent g x y ↔ mergedReach g x y))
    ∧ (comp ∈ g.get_connected_components → x ∈ comp → x ∈ g.nodes) := by
  refine ⟨?_, fun hx => inSameComponent_self hx,
    fun hx hy => inSameComponent_iff_reach hw hx hy, ?_⟩
  · intro hab hbc
    have hna := (mergedAdj_mem_nodes hw hab).1
    obtain ⟨d, hd, had, -⟩ := inSameComponent_self hna
    obtain ⟨r, _, hch⟩ := mem_comp_characterize hw hd
    have hra := (hch a).mp had
    have hrb : mergedReach g r b :=
      hra.2.trans (Relation.ReflTransGen.single hab)
    have hrc : mergedReach g r c :=
      hrb.trans (Relation.ReflTransGen.single hbc)
    refine ⟨d, hd, had, ?_, ?_⟩
    · exact (hch b).mpr ⟨(mergedAdj_mem_nodes hw hab).2, hrb⟩
    · exact (hch c).mpr ⟨(mergedAdj_mem_nodes hw hbc).2, hrc⟩
  · intro hcomp hx
    obtain ⟨r, _, hch⟩ := mem_comp_characterize hw hcomp
    exact ((hch x).mp hx).1

/-- Witness for c6_merged_components: in ragChain — merged edges (1,2) and
(2,3), no edge (1,3) — nodes 1 and 3 land in one returned component. -/
theorem c6_witness : inSameComponent ragChain 1 3 := by
  obtain ⟨d, hd, h1, -, h3⟩ :=
    (c6_merged_components ragChain 1 2 3 0 0 [] (by decide)).1
      (by decide) (by decide)
  exact ⟨d, hd, h1, h3⟩

/-- Helper: any array member is at most the array's max. -/
theorem le_listMax {l : List Nat} {v : Nat} (h : v ∈ l) : v ≤ listMax l := by
  induction l with
  | nil => cases h
  | cons a t ih =>
    rcases List.mem_cons.mp h with h | h
    · subst h
      exact Nat.le_max_left v (listMax t)
    · exact (ih h).trans (Nat.le_max_right a (listMax t))

/-- Helper: a table write preserves the table's length. -/
theorem vmWrite_length (lab : Nat) (vm : List Nat) (c : Nat) :
    (vmWrite lab vm c).length = vm.length := by
  unfold vmWrite
  split
  · exact List.length_set vm c lab
  · rfl

/-- Helper: writing a whole component preserves the table's length. -/
theorem vmComponent_length (cl : List Nat × Nat) :
    ∀ vm, (vmComponent vm cl).length = vm.length := by
  show ∀ vm, (cl.1.foldl (vmWrite cl.2) vm).length = vm.length
  induction cl.1 with
  | nil => intro vm; rfl
  | cons c cs ih =>
    intro vm
    calc ((c :: cs).foldl (vmWrite cl.2) vm).length
        = (cs.foldl (vmWrite cl.2) (vmWrite cl.2 vm c)).length := rfl
      _ = (vmWrite cl.2 vm c).length := ih _
      _ = vm.length := vmWrite_length cl.2 vm c

/-- Helper: a write chain over member indices not containing c leaves entry c
unchanged. -/
theorem foldl_vmWrite_not_mem (lab : Nat) :
    ∀ (comp : List Nat) (c : Nat) (vm : List Nat), c ∉ comp →
      (comp.foldl (vmWrite lab) vm)[c]? = vm[c]?
  | [], _, _, _ => rfl
  | d :: ds, c, vm, h => by
    have hdc : d ≠ c := fun he => h (he ▸ List.mem_cons_self d ds)
    have hds : c ∉ ds := fun hm => h (List.mem_cons_of_mem d hm)
    have h1 : ((d :: ds).foldl (vmWrite lab) vm)[c]?
        = (vmWrite lab vm d)[c]? :=
      foldl_vmWrite_not_mem lab ds c (vmWrite lab vm d) hds
    rw [h1]
    unfold vmWrite
    split
    · exact List.getElem?_set_ne hdc
    · rfl

/-- Helper: a write chain over a component containing the in-range index c
sets entry c to the component's label. -/
theorem foldl_vmWrite_mem (lab : Nat) :
    ∀ (comp : List Nat) (c : Nat) (vm : List Nat), c ∈ comp → c < vm.length →
      (comp.foldl (vmWrite lab) vm)[c]? = some lab
  | [], _, _, h, _ => absurd h (by simp)
  | d :: ds, c, vm, h, hlt => by
    by_cases hds : c ∈ ds
    · exact foldl_vmWrite_mem lab ds c (vmWrite lab vm d) hds
        (by rw [vmWrite_length]; exact hlt)
    · have hdc : d = c := by
        rcases List.mem_cons.mp h with h | h
        · exact h.symm
        · exact absurd h hds
      subst hdc
      have h1 : ((d :: ds).foldl (vmWrite lab) vm)[d]?
          = (vmWrite lab vm d)[d]? :=
        foldl_vmWrite_not_mem lab ds d (vmWrite lab vm d) hds
      rw [h1]
      unfold vmWrite
      rw [if_pos hlt]
      exact List.getElem?_set_self hlt

/-- Helper: a component not containing an index leaves that table entry
unchanged. -/
theorem vmComponent_not_mem {cl : List Nat × Nat} {c : Nat} (h : c ∉ cl.1)
    (vm : List Nat) : (vmComponent vm cl)[c]? = vm[c]? :=
  foldl_vmWrite_not_mem cl.2 cl.1 c vm h

/-- Helper: a component containing an in-range index sets that table entry to
the component's label. -/
theorem vmComponent_mem {cl : List Nat × Nat} {c : Nat} (h : c ∈ cl.1)
    (vm : List Nat) (hlt : c < vm.length) : (vmComponent vm cl)[c]? = some cl.2 :=
  foldl_vmWrite_mem cl.2 cl.1 c vm h hlt

/-- Helper: the component fold preserves the table length. -/
theorem foldl_vmComponent_length :
    ∀ (pairs : List (List Nat × Nat)) (vm : List Nat),
      (pairs.foldl vmComponent vm).length = vm.length
  | [], _ => rfl
  | cl :: rest, vm => by
    have h1 : ((cl :: rest).foldl vmComponent vm).length
        = (vmComponent vm cl).length :=
      foldl_vmComponent_length rest (vmComponent vm cl)
    rw [h1, vmComponent_length]

/-- Helper: components that do not contain an index leave its table entry
unchanged. -/
theorem foldl_vmComponent_not_mem {c : Nat} :
    ∀ (pairs : List (List Nat × Nat)) (vm : List Nat),
      (∀ p ∈ pairs, c ∉ p.1) → (pairs.foldl vmComponent vm)[c]? = vm[c]?
  | [], _, _ => rfl
  | cl :: rest, vm, h => by
    have h1 : ((cl :: rest).foldl vmComponent vm)[c]?
        = (vmComponent vm cl)[c]? :=
      foldl_vmComponent_not_mem rest (vmComponent vm cl)
        (fun p hp => h p (List.mem_cons_of_mem cl hp))
    rw [h1]
    exact vmComponent_not_mem (h cl (List.mem_cons_self cl rest)) vm

/-- Helper: if the pair list splits around a component containing the index,
and the later pairs avoid the index, the final table entry is that
component's label. -/
theorem foldl_vmComponent_split {c lab : Nat} {comp : List Nat}
    (pre post : List (List Nat × Nat)) (vm : List Nat) (hc : c ∈ comp)
    (hpost : ∀ p ∈ post, c ∉ p.1) (hlt : c < vm.length) :
    ((pre ++ (comp, lab) :: post).foldl vmComponent vm)[c]? = some lab := by
  rw [List.foldl_append]
  have hlen : c < (pre.foldl vmComponent vm).length := by
    rw [foldl_vmComponent_length]
    exact hlt
  have h1 : (((comp, lab) :: post).foldl vmComponent
      (pre.foldl vmComponent vm))[c]?
      = (vmComponent (pre.foldl vmComponent vm) ((comp, lab)))[c]? :=
    foldl_vmComponent_not_mem post _ hpost
  rw [h1]
  exact vmComponent_mem hc _ hlen

/-- Helper: the contraction fold appends one representative per component. -/
theorem contract_foldl_snd {α : Type} :
    ∀ (comps : List (List Nat)) (st : Rag α × List Nat),
      (comps.foldl contractStep st).2
        = st.2 ++ comps.map (fun c => c.getLast?.getD 0)
  | [], st => by simp
  | comp :: rest, st => by
    rw [List.foldl_cons, contract_foldl_snd rest (contractStep st comp)]
    show (st.2 ++ [comp.getLast?.getD 0]) ++ _ = st.2 ++ _
    rw [List.append_assoc]
    rfl

/-- Helper: the representatives __contract_nodes returns are the last nodes of
the components, in order. -/
theorem contractNodes_snd {α : Type} (g : Rag α) (comps : List (List Nat)) :
    (contractNodes g comps).2 = comps.map (fun c => c.getLast?.getD 0) := by
  unfold contractNodes
  rw [contract_foldl_snd]
  rfl


/-- C7 counterexample: contract_merged_nodes called on ragPair with the voxel
array [5] — whose label 5 is not a node of the RAG — leaves the voxel's label
at 5, although the set of component representatives is {2}: a voxel whose
label is outside the node set retains a label outside the representative set,
contrary to the claim's second half. -/
theorem c7_foreign_label_retained :
    ragPair.wf
    ∧ (ragPair.contract_merged_nodes (some [5])).2 = some [5]
    ∧ (contractNodes ragPair ragPair.get_connected_components).2 = [2]
    ∧ ((5 : Nat) ∈ ([5] : List Nat))
    ∧ ¬((5 : Nat) ∈ ([2] : List Nat)) := by decide

/-- Helper: zipping a list with its own image lists each element with its
image. -/
theorem zip_self_map {β γ : Type} (f : β → γ) :
    ∀ (l : List β), l.zip (l.map f) = l.map (fun a => (a, f a))
  | [] => rfl
  | a :: t => by
    simp only [List.map_cons, List.zip_cons_cons, zip_self_map f t]

/-- C7 as amended: provided every label occurring in the voxel array is a node
of the (well-formed) RAG, after contract_merged_nodes every voxel whose
original label belongs to some returned merged component carries that
component's representative (its last node), and every label of the relabeled
array is one of the component representatives. -/
theorem c7_contract_relabel_amended {α : Type} (g : Rag α)
    (array out : List Nat) (i v w : Nat) (comp : List Nat)
    (hw : g.wf) (harr : ∀ u ∈ array, u ∈ g.nodes)
    (hout : (g.contract_merged_nodes (some array)).2 = some out) :
    (array.get? i = some v → comp ∈ g.get_connected_components → v ∈ comp →
      out.get? i = some (comp.getLast?.getD 0))
    ∧ (w ∈ out → w ∈ (contractNodes g g.get_connected_components).2) := by
  have hdisj := (gccGo_disjoint g hw g.nodes.dedup []
    (fun z hz => hz) (by intro y hy; cases hy)).2
  have houtval : out = relabelArray array g.get_connected_components
      (contractNodes g g.get_connected_components).2 := by
    have : (g.contract_merged_nodes (some array)).2
        = some (relabelArray array g.get_connected_components
            (contractNodes g g.get_connected_components).2) := rfl
    rw [this] at hout
    exact (Option.some.inj hout).symm
  have hlabels := contractNodes_snd g g.get_connected_components
  -- the table entry of a node inside component `d` holds d's representative
  have key : ∀ (d : List Nat) (u : Nat), d ∈ g.get_connected_components →
      u ∈ d → u ∈ array →
      ((g.get_connected_components.zip
          (contractNodes g g.get_connected_components).2).foldl vmComponent
        (List.range (listMax array + 1)))[u]? = some (d.getLast?.getD 0) := by
    intro d u hd hud hua
    rw [hlabels, zip_self_map (fun c : List Nat => c.getLast?.getD 0)]
    obtain ⟨pre0, post0, hsplit⟩ := List.append_of_mem hd
    have hpw : List.Pairwise (fun c e => ∀ y ∈ c, y ∉ e)
        (pre0 ++ d :: post0) := hsplit ▸ hdisj
    have hpost : ∀ e ∈ post0, u ∉ e := by
      have h2 := (List.pairwise_append.mp hpw).2.1
      intro e he
      exact (List.pairwise_cons.mp h2).1 e he u hud
    have hmap : (pre0 ++ d :: post0).map
        (fun c => (c, c.getLast?.getD 0))
        = pre0.map (fun c => (c, c.getLast?.getD 0))
          ++ (d, d.getLast?.getD 0)
            :: post0.map (fun c => (c, c.getLast?.getD 0)) := by
      simp
    rw [hsplit, hmap]
    refine foldl_vmComponent_split _ _ _ hud ?_ ?_
    · intro p hp
      obtain ⟨e, he, hpe⟩ := List.mem_map.mp hp
      rw [← hpe]
      exact hpost e he
    · rw [List.length_range]
      exact Nat.lt_succ_of_le (le_listMax hua)
  have hra : relabelArray array g.get_connected_components
      (contractNodes g g.get_connected_components).2
      = array.map (fun u =>
          ((g.get_connected_components.zip
              (contractNodes g g.get_connected_components).2).foldl
            vmComponent (List.range (listMax array + 1))).getD u u) := rfl
  constructor
  · intro hv hcomp hvc
    have hva : v ∈ array := List.get?_mem hv
    have hkey := key comp v hcomp hvc hva
    rw [houtval, hra, List.get?_eq_getElem?, List.getElem?_map,
      ← List.get?_eq_getElem?, hv, Option.map_some',
      List.getD_eq_getElem?_getD, hkey]
    rfl
  · intro hwout
    rw [houtval, hra] at hwout
    obtain ⟨u, hu, huw⟩ := List.mem_map.mp hwout
    have hun := harr u hu
    obtain ⟨d, hd, hud, -⟩ := inSameComponent_self hun
    have hkey := key d u hd hud hu
    rw [List.getD_eq_getElem?_getD, hkey] at huw
    rw [← huw, hlabels]
    exact List.mem_map_of_mem (fun c => c.getLast?.getD 0) hd

/-- Witness for c7_contract_relabel_amended: ragPair with voxel array [1];
the voxel's label 1 lies in the single component [1, 2] and is relabeled to
the representative 2. -/
theorem c7_witness :
    (([1] : List Nat).get? 0 = some 1 →
      [1, 2] ∈ ragPair.get_connected_components → (1 : Nat) ∈ [1, 2] →
      ([2] : List Nat).get? 0 = some (([1, 2] : List Nat).getLast?.getD 0))
    ∧ ((2 : Nat) ∈ ([2] : List Nat) →
      (2 : Nat) ∈ (contractNodes ragPair ragPair.get_connected_components).2) :=
  c7_contract_relabel_amended ragPair [1] [2] 0 1 2 [1, 2]
    (by decide) (by decide) (by decide)

/-- Helper: the networkx dict update always leaves both flags at 0, whatever
the prior record was. -/
theorem addEdgeData_flags {α : Type} (old : Option (EdgeData α)) :
    (addEdgeData old).merged = 0 ∧ (addEdgeData old).agglomerated = 0 := by
  cases old with
  | none => exact ⟨rfl, rfl⟩
  | some d => exact ⟨rfl, rfl⟩

/-- Helper: an edge of the graph after one merge_nodes call was either already
present, untouched, or went through add_edge and has both flags reset to 0. -/
theorem mergeNodes_edges_flags {α : Type} {g : Rag α} {src dst : Nat}
    {e : Nat × Nat × EdgeData α} (he : e ∈ (mergeNodes g src dst).edges) :
    e ∈ g.edges ∨ (e.2.2.merged = 0 ∧ e.2.2.agglomerated = 0) := by
  simp only [mergeNodes] at he
  rcases List.mem_append.mp he with h | h
  · exact Or.inl (List.mem_filter.mp h).1
  · obtain ⟨n, _, hn⟩ := List.mem_map.mp h
    refine Or.inr ?_
    rw [← hn]
    exact addEdgeData_flags (edgeDataBetween g dst n)

/-- Helper: the same, through the whole merge chain of one component. -/
theorem mergeChain_edges_flags {α : Type} :
    ∀ (l : List Nat) (g : Rag α) (e : Nat × Nat × EdgeData α),
      e ∈ (mergeChain g l).edges →
      e ∈ g.edges ∨ (e.2.2.merged = 0 ∧ e.2.2.agglomerated = 0)
  | [], _, _, h => Or.inl h
  | [_], _, _, h => Or.inl h
  | _ :: b :: rest, g, e, h => by
    rcases mergeChain_edges_flags (b :: rest) (mergeNodes g _ b) e h with h1 | h1
    · exact mergeNodes_edges_flags h1
    · exact Or.inr h1

/-- Helper: the same, through the contraction fold over all components. -/
theorem contract_foldl_edges_flags {α : Type} :
    ∀ (comps : List (List Nat)) (st : Rag α × List Nat)
      (e : Nat × Nat × EdgeData α),
      e ∈ (comps.foldl contractStep st).1.edges →
      e ∈ st.1.edges ∨ (e.2.2.merged = 0 ∧ e.2.2.agglomerated = 0)
  | [], _, _, h => Or.inl h
  | comp :: rest, st, e, h => by
    rcases contract_foldl_edges_flags rest (contractStep st comp) e h with h1 | h1
    · exact mergeChain_edges_flags comp st.1 e h1
    · exact Or.inr h1

/-- The half of the synthesized-edge property that does hold: every edge of
the graph produced by contract_merged_nodes is an untouched original edge or
has both its merged and agglomerated flags equal to 0, regardless of the
attribute values of the edges it replaces. -/
theorem contracted_edges_flags_reset {α : Type} (g : Rag α)
    (fragments : Option (List Nat)) (e : Nat × Nat × EdgeData α)
    (he : e ∈ ((g.contract_merged_nodes fragments).1).edges) :
    e ∈ g.edges ∨ (e.2.2.merged = 0 ∧ e.2.2.agglomerated = 0) :=
  contract_foldl_edges_flags g.get_connected_components (g, []) e he

/-- C8, evaluated at the failing input: contracting ragTri's merged component
[1,2] makes `merge_nodes(1, 2)` call `add_edge(3, 2)` for the surviving
neighbor 3, and since node 2 already had an edge to 3 carrying the non-flag
attribute entry `()` (standing for center_z/y/x), networkx's add_edge updates
that dict: the resulting synthesized edge (3,2) — which was not an edge of the
input — has both flags reset to 0 but still carries the old attribute entry,
contrary to the claim (and to rag.py's own docstring "Other edge attributes
will be lost"). -/
theorem c8_synthesized_edge_retains_extra_attributes :
    (ragTri.contract_merged_nodes none).1.edges
      = [(3, 2, (⟨0, 0, [()]⟩ : EdgeData Unit))]
    ∧ ((3 : Nat), (2 : Nat), (⟨0, 0, [()]⟩ : EdgeData Unit)) ∉ ragTri.edges
    ∧ (⟨0, 0, [()]⟩ : EdgeData Unit).extra = [()]
    ∧ (⟨0, 0, [()]⟩ : EdgeData Unit).extra ≠ [] := by decide

/-- Helper: the compacting relabel emits only values at most the array
length. -/
theorem relabel_val_le {data : List Nat} {x : Nat}
    (hx : x ∈ (relabel data).1) : x ≤ data.length := by
  simp only [relabel, List.mem_map] at hx
  obtain ⟨y, hy, hxy⟩ := hx
  by_cases hy0 : y = 0
  · rw [if_pos hy0] at hxy
    omega
  · rw [if_neg hy0] at hxy
    subst hxy
    have hyv : y ∈ (data.filter (fun x => x ≠ 0)).dedup :=
      List.mem_dedup.mpr (List.mem_filter.mpr ⟨hy, decide_eq_true hy0⟩)
    have hidx := List.indexOf_lt_length.mpr hyv
    have h1 := (List.dedup_sublist (data.filter (fun x => x ≠ 0))).length_le
    have h2 := List.length_filter_le (fun x => decide (x ≠ 0)) data
    omega

/-- Helper: the node ids a block writes to the RAG store are labels present in
its written fragment data and exceed the block's id bump. -/
theorem watershed_in_block_nodes_sub {p : BlockParams} {cropped : List Nat}
    {n0 : Nat} {frags nodes : List Nat}
    (h : watershed_in_block p cropped n0 = some (frags, nodes)) :
    ∀ v ∈ nodes, v ∈ frags ∧ id_bump p < v := by
  unfold watershed_in_block at h
  by_cases hc : listMax cropped > p.writeRoiSize
  · simp only [if_pos hc] at h
    split at h
    · exact absurd h (by simp)
    · injection h with h1
      have hf := congrArg Prod.fst h1
      have hn := congrArg Prod.snd h1
      simp only at hf hn
      subst hf
      subst hn
      intro v hv
      have hvf := List.mem_filter.mp hv
      obtain ⟨i, -, hvi⟩ := List.mem_map.mp hvf.1
      refine ⟨of_decide_eq_true hvf.2, ?_⟩
      omega
  · simp only [if_neg hc] at h
    split at h
    · exact absurd h (by simp)
    · injection h with h1
      have hf := congrArg Prod.fst h1
      have hn := congrArg Prod.snd h1
      simp only at hf hn
      subst hf
      subst hn
      intro v hv
      have hvf := List.mem_filter.mp hv
      obtain ⟨i, -, hvi⟩ := List.mem_map.mp hvf.1
      refine ⟨of_decide_eq_true hvf.2, ?_⟩
      omega

/-- Helper: the emitted-ids list of a successful block run. -/
theorem emitted_ids_some {p : BlockParams} {cropped : List Nat} {n0 : Nat}
    {frags nodes : List Nat}
    (h : watershed_in_block p cropped n0 = some (frags, nodes)) :
    emitted_ids p cropped n0 = frags.filter (fun x => x ≠ 0) ++ nodes := by
  unfold emitted_ids
  rw [h]

/-- Helper: with voxel volume 1 (so that the world-unit guard coincides with
the voxel-count guard) every id a block emits lies in the half-open id
interval the block owns. -/
theorem emitted_ids_bound (p : BlockParams) (cropped : List Nat) (n0 : Nat)
    (hvol : p.voxelVolume = 1)
    (hwr : p.writeRoiSize ≤ p.requestedWriteRoiSize)
    (hlen : cropped.length ≤ num_voxels_in_block p) :
    ∀ v ∈ emitted_ids p cropped n0,
      id_bump p < v ∧ v ≤ id_bump p + num_voxels_in_block p := by
  intro v hv
  cases hres : watershed_in_block p cropped n0 with
  | none =>
    unfold emitted_ids at hv
    rw [hres] at hv
    cases hv
  | some r =>
    obtain ⟨frags, nodes⟩ := r
    rw [emitted_ids_some hres] at hv
    have hfr := watershed_in_block_frags_eq hres
    have hfb : ∀ u ∈ frags, u = 0
        ∨ (id_bump p < u ∧ u ≤ id_bump p + num_voxels_in_block p) := by
      intro u hu
      rw [hfr] at hu
      obtain ⟨x, hx, hxu⟩ := List.mem_map.mp hu
      by_cases hx0 : 0 < x
      · rw [if_pos hx0] at hxu
        refine Or.inr ?_
        have hreqV : num_voxels_in_block p = p.requestedWriteRoiSize := by
          unfold num_voxels_in_block
          rw [hvol, Nat.div_one]
        have hxle : x ≤ num_voxels_in_block p := by
          by_cases hg : listMax cropped > p.writeRoiSize
          · rw [if_pos hg] at hx
            have := relabel_val_le hx
            omega
          · rw [if_neg hg] at hx
            have h1 := le_listMax hx
            omega
        omega
      · rw [if_neg hx0] at hxu
        omega
    rcases List.mem_append.mp hv with h | h
    · have hm := List.mem_filter.mp h
      have hne : v ≠ 0 := of_decide_eq_true hm.2
      rcases hfb v hm.1 with h0 | hb
      · exact absurd h0 hne
      · exact hb
    · have hns := watershed_in_block_nodes_sub hres v h
      rcases hfb v hns.1 with h0 | hb
      · omega
      · exact hb

/-- The uniqueness invariant the relabel guard is meant to establish does hold
when the voxel volume is 1, i.e. exactly when `block.write_roi.size()` equals
the write region's voxel count: two blocks of the same geometry but different
block ids then emit disjoint id sets.  (With voxel volume greater than 1 the
guard's unit mismatch breaks this, as blockA and blockB demonstrate.) -/
theorem blocks_emit_disjoint_ids_when_voxel_volume_one
    (p q : BlockParams) (cp cq : List Nat) (np nq : Nat) (v : Nat)
    (hvp : p.voxelVolume = 1) (hvq : q.voxelVolume = 1)
    (hreq : p.requestedWriteRoiSize = q.requestedWriteRoiSize)
    (hwp : p.writeRoiSize ≤ p.requestedWriteRoiSize)
    (hwq : q.writeRoiSize ≤ q.requestedWriteRoiSize)
    (hlp : cp.length ≤ num_voxels_in_block p)
    (hlq : cq.length ≤ num_voxels_in_block q)
    (hid : p.blockId ≠ q.blockId)
    (hvin : v ∈ emitted_ids p cp np) : v ∉ emitted_ids q cq nq := by
  intro hvin2
  have hb1 := emitted_ids_bound p cp np hvp hwp hlp v hvin
  have hb2 := emitted_ids_bound q cq nq hvq hwq hlq v hvin2
  have hV : num_voxels_in_block p = num_voxels_in_block q := by
    unfold num_voxels_in_block
    rw [hvp, hvq, hreq]
  unfold id_bump at hb1 hb2
  rw [hV] at hb1
  rcases Nat.lt_trichotomy p.blockId q.blockId with hlt | heq | hlt
  · have hmul : (p.blockId + 1) * num_voxels_in_block q
        ≤ q.blockId * num_voxels_in_block q :=
      Nat.mul_le_mul_right _ (Nat.succ_le_of_lt hlt)
    have hdist : (p.blockId + 1) * num_voxels_in_block q
        = p.blockId * num_voxels_in_block q + num_voxels_in_block q := by
      ring
    omega
  · exact hid heq
  · have hmul : (q.blockId + 1) * num_voxels_in_block q
        ≤ p.blockId * num_voxels_in_block q :=
      Nat.mul_le_mul_right _ (Nat.succ_le_of_lt hlt)
    have hdist : (q.blockId + 1) * num_voxels_in_block q
        = q.blockId * num_voxels_in_block q + num_voxels_in_block q := by
      ring
    omega
